import Mathlib

/-!
Shallow embedding of the state-synchronization and media-cache controller of
imgapp (src/static/js/utils.js, class App) together with proofs about the
behaviour claimed in its specification.

Modelling conventions:
- JavaScript numbers that only ever hold integral millisecond timestamps are
  modelled as Nat; quantities obtained by division (cache timestamps
  Date.now()/1000, aspect ratios, volumes, pan coordinates) are modelled as
  rationals.  All sample inputs used below stay far away from the
  floating-point rounding regime, so exact arithmetic is faithful.
- The JavaScript object this._fileCache (string keys to {img, ts} records) is
  modelled as a list of entries in insertion order, which is exactly the
  enumeration order Object.keys gives for non-integer-like string keys.  The
  identity of an HTMLImageElement is modelled by a numeric imgId allocated
  from a counter, and its mutable src attribute is carried in the entry.
- Array.prototype.sort (required stable by the language specification) is
  modelled by a stable insertion sort parameterised by the source comparator.
- DOM rendering, focus handling and event wiring are outside the embedded
  state, mirroring the specification's scope; save() and _render() do not
  change the embedded AppState and are dropped.
- A fallible fetch is modelled by an Option-valued response argument (none:
  the network request or JSON decoding failed and the catch block has already
  logged the error).  An exception escaping the function is an Except.error
  carrying the message together with the state as it was when the throw
  happened.
-/

namespace ImgApp

/-- A folder entry as held in AppState.folders ({name, path, symlink}). -/
structure AppFolder where
  name : String
  path : String
  symlink : Bool
  deriving Repr, DecidableEq, Inhabited

/-- A file entry as held in AppState.files ({name, path, symlink, mtime}). -/
structure AppFile where
  name : String
  path : String
  symlink : Bool
  mtime : ℚ
  deriving Repr, DecidableEq, Inhabited

/-- The persisted application state of class App, together with the derived
navigation cursor this._fileIndex that the class keeps alongside it.  All
index arithmetic in the source clamps the cursor at 0, so Nat is faithful. -/
@[ext] structure AppState where
  folderHash : Option String
  currentPath : Option String
  currentFile : Option String
  folders : List AppFolder
  files : List AppFile
  showHidden : Bool
  sortBy : String
  sortOrder : String
  volume : ℚ
  fileIndex : Nat
  deriving Repr, DecidableEq, Inhabited

/-- The defaultState object of the source (volume 1.0), with the cursor the
constructor derives for an empty file list. -/
def defaultState : AppState :=
  { folderHash := none
    currentPath := none
    currentFile := none
    folders := []
    files := []
    showHidden := false
    sortBy := "name"
    sortOrder := "asc"
    volume := 1
    fileIndex := 0 }

/-- The characters removed by the comparator regexp [\[\]\(\)\{}<>]+. -/
def bracketChars : List Char :=
  ['[', ']', '(', ')', '<', '>', Char.ofNat 123, Char.ofNat 125]

/-- name.toLowerCase().replace(bracket regexp, ''): the normalized sort key. -/
def normName (s : String) : String :=
  String.mk (s.toLower.data.filter (fun ch => !(bracketChars.contains ch)))

/-- Insert an element into a comparator-sorted list, after every element the
comparator does not order strictly after it.  This is the insertion step of a
stable sort. -/
def insertCmp (c : α → α → Int) (x : α) : List α → List α
  | [] => [x]
  | y :: ys => if c y x ≤ 0 then y :: insertCmp c x ys else x :: y :: ys

/-- Stable comparator sort modelling Array.prototype.sort (stable per the
ECMAScript specification): elements are inserted in original order, each after
all elements the comparator treats as not-after it. -/
def sortCmp (c : α → α → Int) (l : List α) : List α :=
  l.foldl (fun acc x => insertCmp c x acc) []

/-- The folder comparator of App._resort (lines 266-276): lowercase
bracket-stripped keys, '..' pinned first, otherwise ascending; it reads
neither sortBy nor sortOrder. -/
def folderCmp (a b : AppFolder) : Int :=
  if normName a.name = ".." then -1
  else if normName b.name = ".." then 1
  else if normName a.name = normName b.name then 0
  else if normName a.name < normName b.name then -1
  else 1

/-- The file comparator of App._resort (lines 278-292): key a[sortBy]
(normalized when sortBy is 'name', numeric mtime otherwise), direction given
by sortOrder.  For a sortBy that is neither 'name' nor 'mtime' the source
compares two undefined values, which are strictly equal, so the comparator
returns 0. -/
def fileCmp (sortBy sortOrder : String) (a b : AppFile) : Int :=
  if sortBy = "name" then
    if normName a.name = normName b.name then 0
    else if normName a.name < normName b.name then (if sortOrder = "asc" then -1 else 1)
    else (if sortOrder = "asc" then 1 else -1)
  else if sortBy = "mtime" then
    if a.mtime = b.mtime then 0
    else if a.mtime < b.mtime then (if sortOrder = "asc" then -1 else 1)
    else (if sortOrder = "asc" then 1 else -1)
  else 0

/-- App._resort: sorts folders and files in place and re-derives the cursor
as Math.max(0, files.findIndex(f => f.path === currentFile)). -/
def resort (s : AppState) : AppState :=
  let folders := sortCmp folderCmp s.folders
  let files := sortCmp (fileCmp s.sortBy s.sortOrder) s.files
  let idx := (List.findIdx? (fun f => some f.path == s.currentFile) files).getD 0
  { s with folders := folders, files := files, fileIndex := idx }

/-- App.changeSort: a no-op when both parameters already match, otherwise
store them and resort. -/
def changeSort (s : AppState) (sortBy sortOrder : String) : AppState :=
  if s.sortBy = sortBy ∧ s.sortOrder = sortOrder then s
  else resort { s with sortBy := sortBy, sortOrder := sortOrder }

/-- The hash member of the /list response, an object {hash: string}
(the source reads data.hash.hash). -/
structure RespHash where
  hash : String
  deriving Repr, DecidableEq, Inhabited

/-- The decoded /list response consumed by App._fetchList. -/
structure ResponseList where
  canonical_path : String
  folders : List AppFolder
  files : List AppFile
  hash : RespHash
  deriving Repr, DecidableEq, Inhabited

/-- App._fetchList (lines 200-230).  The resp argument is the outcome of the
fetch-and-decode step: none means it threw and the catch block logged the
error, leaving the local variable data undefined.  The source then evaluates
data.canonical_path outside the try block, so the none case throws a
TypeError that is not caught inside the function; the error value carries the
state at the moment of the throw.  On a response, the state is updated,
resorted and the selection reconciled; the returned Bool is the
_listRebuildRequired flag. -/
def fetchList (s : AppState) (resp : Option ResponseList) (forceRebuild : Bool) :
    Except (String × AppState) (AppState × Bool) :=
  match resp with
  | none =>
      Except.error ("TypeError: data is undefined", s)
  | some data =>
      let rebuild := (s.currentPath != some data.canonical_path) || forceRebuild
      let s1 := { s with
        currentPath := some data.canonical_path
        folders := data.folders
        files := data.files
        folderHash := some data.hash.hash }
      let s2 := resort s1
      let s3 :=
        if s2.files.length > 0 then
          match List.findIdx? (fun f => some f.path == s2.currentFile) s2.files with
          | some i => { s2 with fileIndex := i }
          | none =>
              { s2 with fileIndex := 0
                        currentFile := (s2.files[0]?).map AppFile.path }
        else
          { s2 with currentFile := none }
      Except.ok (s3, rebuild)

/-- App.nextFile: advance the cursor, clamped to the last index; a no-op on
an empty list.  The DOM-only calls save(), _render() and
setObjectPosition(0,0) do not touch the embedded state. -/
def nextFile (s : AppState) : AppState :=
  if s.files.length = 0 then s
  else
    let i := min (s.files.length - 1) (s.fileIndex + 1)
    { s with fileIndex := i, currentFile := (s.files[i]?).map AppFile.path }

/-- App.prevFile: step the cursor back, clamped at 0 (Nat subtraction is
exactly Math.max(0, i - 1)); a no-op on an empty list. -/
def prevFile (s : AppState) : AppState :=
  if s.files.length = 0 then s
  else
    let i := s.fileIndex - 1
    { s with fileIndex := i, currentFile := (s.files[i]?).map AppFile.path }

/-- MAX_CACHED_IMAGES = 50. -/
def MAX_CACHED_IMAGES : Nat := 50

/-- One slot of this._fileCache: the key, the identity of the cached
HTMLImageElement, its current src attribute and its last-access timestamp
(Date.now()/1000, in seconds). -/
structure CacheEntry where
  key : String
  imgId : Nat
  src : String
  ts : ℚ
  deriving Repr, DecidableEq, Inhabited

/-- The cache object together with the allocator for image identities. -/
structure ImgCache where
  entries : List CacheEntry
  nextId : Nat
  deriving Repr, DecidableEq, Inhabited

/-- The empty cache of a fresh App instance. -/
def emptyCache : ImgCache := { entries := [], nextId := 0 }

/-- String.prototype.endsWith, as a suffix test on the character list. -/
def strEndsWith (s t : String) : Bool :=
  t.data.isSuffixOf s.data

/-- Decimal digits of n, most significant first (structural, fuelled). -/
def natDigitsAux : Nat → Nat → List Char
  | 0, _ => []
  | fuel + 1, n =>
      if n < 10 then [Char.ofNat (48 + n)]
      else natDigitsAux fuel (n / 10) ++ [Char.ofNat (48 + n % 10)]

/-- String(n) for a natural number, the textual form of Date.now() used as
the cache-busting token. -/
def natStr (n : Nat) : String :=
  String.mk (natDigitsAux (n + 1) n)

/-- The /get-file URL bound to an image or video element for a path. -/
def fileUrl (file : String) : String :=
  "/get-file?path=" ++ file

/-- The same URL with the cache-busting parameter t set to Date.now(). -/
def fileUrlTok (file : String) (t : Nat) : String :=
  "/get-file?path=" ++ file ++ "&t=" ++ natStr t

/-- The update applied to the entry of file on a cache hit: only the
last-access timestamp is rewritten. -/
def touch (file : String) (t : Nat) (e : CacheEntry) : CacheEntry :=
  if e.key = file then { e with ts := (t : ℚ) / 1000 } else e

/-- The update applied to the entry of an animated (.gif) file: its src is
reassigned to the URL carrying the current cache-busting token. -/
def regif (file : String) (t : Nat) (e : CacheEntry) : CacheEntry :=
  if e.key = file then { e with src := fileUrlTok file t } else e

/-- A freshly created cache slot (new Image(), src bound, timestamp now). -/
def newEntry (id : Nat) (file : String) (t : Nat) : CacheEntry :=
  { key := file, imgId := id, src := fileUrl file, ts := (t : ℚ) / 1000 }

/-- App._getImage (lines 395-416), at instant t = Date.now() in
milliseconds: on a miss a new entry is appended, on a hit only the timestamp
is rewritten; when the path ends in .gif the src of the entry is in addition
reassigned with the fresh token; the entry for file is returned. -/
def getImage (c : ImgCache) (file : String) (t : Nat) : ImgCache × CacheEntry :=
  let c1 :=
    if c.entries.any (fun e => e.key == file) then
      { c with entries := c.entries.map (touch file t) }
    else
      { entries := c.entries ++ [newEntry c.nextId file t], nextId := c.nextId + 1 }
  let c2 :=
    if strEndsWith file ".gif" then
      { c1 with entries := c1.entries.map (regif file t) }
    else c1
  (c2, ((c2.entries.find? (fun e => e.key == file)).getD default))

/-- keys.reduce((a, b) => ts[a] < ts[b] ? a : b): the key the cleanup deletes
(none on an empty cache).  On a timestamp tie the reduce keeps b, the
later-encountered entry. -/
def reduceOldest : List CacheEntry → Option CacheEntry
  | [] => none
  | e :: es => some (es.foldl (fun a b => if a.ts < b.ts then a else b) e)

/-- App._cleanupCache (lines 425-437): when more than MAX_CACHED_IMAGES
entries are present, delete the entry selected by the reduce. -/
def cleanupCache (c : ImgCache) : ImgCache :=
  if c.entries.length > MAX_CACHED_IMAGES then
    match reduceOldest c.entries with
    | some old => { c with entries := c.entries.filter (fun e => e.key != old.key) }
    | none => c
  else c

/-- A sequence of image resolutions (path, Date.now()) with no intervening
cleanup, as App._preloadNextAndPrevious performs them. -/
def runResolves (c : ImgCache) (ops : List (String × Nat)) : ImgCache :=
  ops.foldl (fun c op => (getImage c op.1 op.2).1) c

/-- A sequence of image resolutions each immediately followed by a cleanup,
as App._renderImage performs for the displayed image. -/
def runResolveCleanup (c : ImgCache) (ops : List (String × Nat)) : ImgCache :=
  ops.foldl (fun c op => cleanupCache (getImage c op.1 op.2).1) c

/-- The observable attributes of the video element built by App._getVideo
(lines 377-393).  The volume assignment is this.state.volume || 1.0: the
JavaScript or-operator replaces a falsy volume, in particular 0, by 1.0. -/
structure VideoElem where
  src : String
  controls : Bool
  autoplay : Bool
  loop : Bool
  volume : ℚ
  deriving Repr, DecidableEq, Inhabited

/-- App._getVideo: a fresh, uncached video element for the file with the
persisted volume applied through the or-default. -/
def getVideo (s : AppState) (file : String) : VideoElem :=
  { src := fileUrl file
    controls := true
    autoplay := true
    loop := true
    volume := if s.volume = 0 then 1 else s.volume }

/-- App._direction (lines 652-660): 'up' when the media aspect ratio is
strictly below the viewport aspect ratio, 'down' otherwise. -/
def direction (width height cWidth cHeight : ℚ) : String :=
  if width / height < cWidth / cHeight then "up" else "down"

/-- The position computation of App.setObjectPosition (lines 631-643): clamp
both coordinates to [0,100], then pin the non-pannable axis to 50 according
to the direction. -/
def setObjectPosition (width height cWidth cHeight x y : ℚ) : ℚ × ℚ :=
  let x := max 0 (min 100 x)
  let y := max 0 (min 100 y)
  if direction width height cWidth cHeight = "up" then (50, y) else (x, 50)

/-! Generic facts about the stable comparator sort. -/

/-- The relation "the comparator does not order a strictly after b" is
transitive.  Both source comparators satisfy this. -/
def CmpTrans (c : α → α → Int) : Prop :=
  ∀ a b d, c a b ≤ 0 → c b d ≤ 0 → c a d ≤ 0

/-- When the comparator orders a strictly after b it does not also order b
strictly after a.  Both source comparators satisfy this. -/
def CmpTotal (c : α → α → Int) : Prop :=
  ∀ a b, ¬ c a b ≤ 0 → c b a ≤ 0

theorem insertCmp_perm (c : α → α → Int) (x : α) :
    ∀ l : List α, (insertCmp c x l).Perm (x :: l)
  | [] => by simp [insertCmp]
  | y :: ys => by
      by_cases h : c y x ≤ 0
      · simpa [insertCmp, h] using
          (((insertCmp_perm c x ys).cons y).trans (List.Perm.swap x y ys))
      · simp [insertCmp, h]

theorem sortCmp_perm_aux (c : α → α → Int) :
    ∀ (l acc : List α), (l.foldl (fun acc x => insertCmp c x acc) acc).Perm (l ++ acc)
  | [], acc => by simp
  | x :: l, acc => by
      have h1 := sortCmp_perm_aux c l (insertCmp c x acc)
      have h2 := List.Perm.append_left l (insertCmp_perm c x acc)
      exact (h1.trans (h2.trans List.perm_middle)).trans (List.Perm.refl _)

theorem sortCmp_perm (c : α → α → Int) (l : List α) : (sortCmp c l).Perm l := by
  simpa [sortCmp] using sortCmp_perm_aux c l []

theorem insertCmp_mem {c : α → α → Int} {x z : α} {l : List α} :
    z ∈ insertCmp c x l ↔ z = x ∨ z ∈ l := by
  rw [(insertCmp_perm c x l).mem_iff]; simp

theorem insertCmp_pairwise {c : α → α → Int} (hTot : CmpTotal c) (hTr : CmpTrans c)
    (x : α) : ∀ {l : List α}, l.Pairwise (fun a b => c a b ≤ 0) →
      (insertCmp c x l).Pairwise (fun a b => c a b ≤ 0)
  | [], _ => by simp [insertCmp]
  | y :: ys, hl => by
      rcases List.pairwise_cons.1 hl with ⟨hy, hys⟩
      by_cases h : c y x ≤ 0
      · simp only [insertCmp, if_pos h]
        refine List.pairwise_cons.2 ⟨?_, insertCmp_pairwise hTot hTr x hys⟩
        intro z hz
        rcases insertCmp_mem.1 hz with rfl | hz
        · exact h
        · exact hy z hz
      · simp only [insertCmp, if_neg h]
        refine List.pairwise_cons.2 ⟨?_, hl⟩
        intro z hz
        rcases List.mem_cons.1 hz with hzy | hz
        · rw [hzy]; exact hTot y x h
        · exact hTr x y z (hTot y x h) (hy z hz)

theorem sortCmp_pairwise_aux {c : α → α → Int} (hTot : CmpTotal c) (hTr : CmpTrans c) :
    ∀ (l acc : List α), acc.Pairwise (fun a b => c a b ≤ 0) →
      (l.foldl (fun acc x => insertCmp c x acc) acc).Pairwise (fun a b => c a b ≤ 0)
  | [], _, hacc => hacc
  | x :: l, acc, hacc =>
      sortCmp_pairwise_aux hTot hTr l (insertCmp c x acc)
        (insertCmp_pairwise hTot hTr x hacc)

theorem sortCmp_pairwise {c : α → α → Int} (hTot : CmpTotal c) (hTr : CmpTrans c)
    (l : List α) : (sortCmp c l).Pairwise (fun a b => c a b ≤ 0) :=
  sortCmp_pairwise_aux hTot hTr l [] (by simp)

theorem filter_insertCmp_neg {c : α → α → Int} {P : α → Bool} {x : α} (hx : ¬ P x) :
    ∀ l : List α, (insertCmp c x l).filter P = l.filter P
  | [] => by simp [insertCmp, hx]
  | y :: ys => by
      by_cases h : c y x ≤ 0
      · simp [insertCmp, h, List.filter_cons, filter_insertCmp_neg hx ys]
      · simp [insertCmp, h, List.filter_cons, hx]

theorem filter_insertCmp_pos {c : α → α → Int} (hTr : CmpTrans c) {P : α → Bool}
    (hP : ∀ a b, P a → P b → c a b ≤ 0) {x : α} (hx : P x) :
    ∀ {l : List α}, l.Pairwise (fun a b => c a b ≤ 0) →
      (insertCmp c x l).filter P = l.filter P ++ [x]
  | [], _ => by simp [insertCmp, hx]
  | y :: ys, hl => by
      rcases List.pairwise_cons.1 hl with ⟨hy, hys⟩
      by_cases h : c y x ≤ 0
      · simp [insertCmp, h, List.filter_cons, filter_insertCmp_pos hTr hP hx hys]
        by_cases hyP : P y <;> simp [hyP]
      · have hnone : ys.filter P = [] := by
          rw [List.filter_eq_nil_iff]
          intro z hz hzP
          exact h (hTr y z x (hy z hz) (hP z x hzP hx))
        have hyF : ¬ P y := fun hyP => h (hP y x hyP hx)
        simp [insertCmp, h, List.filter_cons, hx, hyF, hnone]

theorem sortCmp_filter_stable_aux {c : α → α → Int} (hTot : CmpTotal c)
    (hTr : CmpTrans c) {P : α → Bool} (hP : ∀ a b, P a → P b → c a b ≤ 0) :
    ∀ (l acc : List α), acc.Pairwise (fun a b => c a b ≤ 0) →
      (l.foldl (fun acc x => insertCmp c x acc) acc).filter P
        = acc.filter P ++ l.filter P
  | [], acc, _ => by simp
  | x :: l, acc, hacc => by
      have ih := sortCmp_filter_stable_aux hTot hTr hP l (insertCmp c x acc)
        (insertCmp_pairwise hTot hTr x hacc)
      by_cases hx : P x
      · rw [List.foldl_cons, ih, filter_insertCmp_pos hTr hP hx hacc,
          List.filter_cons, if_pos hx]
        simp
      · rw [List.foldl_cons, ih, filter_insertCmp_neg hx acc,
          List.filter_cons, if_neg hx]

/-- Stability of the modelled Array.prototype.sort: a comparator that never
separates two elements of the class picked out by P keeps the relative order
of that class. -/
theorem sortCmp_filter_stable {c : α → α → Int} (hTot : CmpTotal c)
    (hTr : CmpTrans c) {P : α → Bool} (hP : ∀ a b, P a → P b → c a b ≤ 0)
    (l : List α) : (sortCmp c l).filter P = l.filter P := by
  simpa [sortCmp] using sortCmp_filter_stable_aux hTot hTr hP l [] (by simp)

/-! Order-theoretic facts about the two source comparators. -/

theorem cmpTrans_of_iff {c : α → α → Int} {r : α → α → Prop} (hr : Transitive r)
    (hc : ∀ a b, c a b ≤ 0 ↔ r a b) : CmpTrans c :=
  fun a b d hab hbd => (hc a d).2 (hr ((hc a b).1 hab) ((hc b d).1 hbd))

theorem cmpTotal_of_iff {c : α → α → Int} {r : α → α → Prop}
    (hr : ∀ a b, r a b ∨ r b a) (hc : ∀ a b, c a b ≤ 0 ↔ r a b) : CmpTotal c :=
  fun a b h => (hc b a).2 ((hr a b).resolve_left (fun hab => h ((hc a b).2 hab)))

theorem folderCmp_le_iff (a b : AppFolder) :
    folderCmp a b ≤ 0 ↔
      (normName a.name = ".." ∨
        (normName b.name ≠ ".." ∧ normName a.name ≤ normName b.name)) := by
  unfold folderCmp
  by_cases h1 : normName a.name = ".."
  · simp [h1]
  · by_cases h2 : normName b.name = ".."
    · simp [h1, h2]
    · rcases lt_trichotomy (normName a.name) (normName b.name) with h | h | h
      · simp [h1, h2, h, ne_of_lt h, le_of_lt h]
      · simp [h1, h2, h, le_of_eq h]
      · simp [h1, h2, h.ne', not_lt.2 h.le, not_le.2 h]

theorem folderCmp_trans : CmpTrans folderCmp := by
  refine cmpTrans_of_iff ?_ folderCmp_le_iff
  rintro a b d (ha | ⟨hb, hab⟩) hbd
  · exact Or.inl ha
  · rcases hbd with hb2 | ⟨hd, hbd⟩
    · exact absurd hb2 hb
    · exact Or.inr ⟨hd, le_trans hab hbd⟩

theorem folderCmp_total : CmpTotal folderCmp := by
  refine cmpTotal_of_iff ?_ folderCmp_le_iff
  intro a b
  by_cases ha : normName a.name = ".."
  · exact Or.inl (Or.inl ha)
  · by_cases hb : normName b.name = ".."
    · exact Or.inr (Or.inl hb)
    · rcases le_total (normName a.name) (normName b.name) with h | h
      · exact Or.inl (Or.inr ⟨hb, h⟩)
      · exact Or.inr (Or.inr ⟨ha, h⟩)

theorem fileCmp_name_le_iff (o : String) (a b : AppFile) :
    fileCmp "name" o a b ≤ 0 ↔
      (if o = "asc" then normName a.name ≤ normName b.name
       else normName b.name ≤ normName a.name) := by
  unfold fileCmp
  rcases lt_trichotomy (normName a.name) (normName b.name) with h | h | h
  · by_cases ho : o = "asc" <;>
      simp [ho, ne_of_lt h, h, le_of_lt h, not_le.2 h]
  · by_cases ho : o = "asc" <;> simp [ho, h, le_of_eq h]
  · by_cases ho : o = "asc" <;>
      simp [ho, h.ne', not_lt.2 h.le, le_of_lt h, not_le.2 h]

theorem fileCmp_mtime_le_iff (o : String) (a b : AppFile) :
    fileCmp "mtime" o a b ≤ 0 ↔
      (if o = "asc" then a.mtime ≤ b.mtime else b.mtime ≤ a.mtime) := by
  unfold fileCmp
  rcases lt_trichotomy a.mtime b.mtime with h | h | h
  · by_cases ho : o = "asc" <;>
      simp [ho, ne_of_lt h, h, le_of_lt h, not_le.2 h]
  · by_cases ho : o = "asc" <;> simp [ho, h, le_of_eq h]
  · by_cases ho : o = "asc" <;>
      simp [ho, h.ne', not_lt.2 h.le, le_of_lt h, not_le.2 h]

theorem fileCmp_trans (sb o : String) : CmpTrans (fileCmp sb o) := by
  by_cases hn : sb = "name"
  · subst hn
    refine cmpTrans_of_iff ?_ (fileCmp_name_le_iff o)
    intro a b d hab hbd
    by_cases ho : o = "asc" <;> simp_all <;>
      first
      | exact le_trans hab hbd
      | exact le_trans hbd hab
  · by_cases hm : sb = "mtime"
    · subst hm
      refine cmpTrans_of_iff ?_ (fileCmp_mtime_le_iff o)
      intro a b d hab hbd
      by_cases ho : o = "asc" <;> simp_all <;>
        first
        | exact le_trans hab hbd
        | exact le_trans hbd hab
    · intro a b d _ _
      simp [fileCmp, hn, hm]

theorem fileCmp_total (sb o : String) : CmpTotal (fileCmp sb o) := by
  by_cases hn : sb = "name"
  · subst hn
    refine cmpTotal_of_iff ?_ (fileCmp_name_le_iff o)
    intro a b
    by_cases ho : o = "asc" <;> simp [ho, le_total]
  · by_cases hm : sb = "mtime"
    · subst hm
      refine cmpTotal_of_iff ?_ (fileCmp_mtime_le_iff o)
      intro a b
      by_cases ho : o = "asc" <;> simp [ho, le_total]
    · intro a b h
      simp [fileCmp, hn, hm] at h

/-- C5: the folder sort of _resort orders entries ascending by the
normalized key for every sortBy and sortOrder (the comparator reads
neither), pins every entry whose normalized key is '..' before all others
(the Pairwise relation forces any entry preceding a non-'..' entry to be
'..' or key-below it, and any entry preceding nothing less), is a
permutation of the input, and preserves the original relative order of
entries with equal normalized keys. -/
theorem folder_sort_spec :
    (∀ (s : AppState) (b o : String),
        (resort { s with sortBy := b, sortOrder := o }).folders
          = sortCmp folderCmp s.folders)
  ∧ (∀ l : List AppFolder, (sortCmp folderCmp l).Perm l)
  ∧ (∀ l : List AppFolder,
        (sortCmp folderCmp l).Pairwise (fun a b =>
          normName a.name = ".." ∨
            (normName b.name ≠ ".." ∧ normName a.name ≤ normName b.name)))
  ∧ (∀ (l : List AppFolder) (k : String),
        (sortCmp folderCmp l).filter (fun f => normName f.name == k)
          = l.filter (fun f => normName f.name == k)) := by
  refine ⟨fun s b o => rfl, fun l => sortCmp_perm _ l, fun l => ?_, fun l k => ?_⟩
  · exact (sortCmp_pairwise folderCmp_total folderCmp_trans l).imp
      (fun h => (folderCmp_le_iff _ _).1 h)
  · refine sortCmp_filter_stable folderCmp_total folderCmp_trans ?_ l
    intro a b ha hb
    have ha' : normName a.name = k := by simpa using ha
    have hb' : normName b.name = k := by simpa using hb
    rw [folderCmp_le_iff]
    by_cases hdd : normName a.name = ".."
    · exact Or.inl hdd
    · exact Or.inr ⟨by rw [hb', ← ha']; exact hdd, by rw [ha', hb']⟩

/-- C6: the file sort of _resort compares by the normalized lowercase
bracket-stripped name when sortBy is 'name' and by numeric mtime when
sortBy is 'mtime'; the 'desc' comparator is the negation of the 'asc' one;
equal keys compare equal (value 0) and the sort keeps the original relative
order of entries whose key is equal, for every sortOrder value; the four
key/direction combinations produce the correspondingly ordered output.
The sort is a function of its input, hence deterministic. -/
theorem file_sort_spec :
    (∀ s : AppState,
        (resort s).files = sortCmp (fileCmp s.sortBy s.sortOrder) s.files)
  ∧ (∀ a b : AppFile,
        (fileCmp "name" "asc" a b = 0 ↔ normName a.name = normName b.name)
      ∧ (fileCmp "mtime" "asc" a b = 0 ↔ a.mtime = b.mtime))
  ∧ (∀ (sb : String) (a b : AppFile),
        fileCmp sb "desc" a b = - fileCmp sb "asc" a b)
  ∧ (∀ l : List AppFile, (sortCmp (fileCmp "name" "asc") l).Pairwise
        (fun a b => normName a.name ≤ normName b.name))
  ∧ (∀ l : List AppFile, (sortCmp (fileCmp "name" "desc") l).Pairwise
        (fun a b => normName b.name ≤ normName a.name))
  ∧ (∀ l : List AppFile, (sortCmp (fileCmp "mtime" "asc") l).Pairwise
        (fun a b => a.mtime ≤ b.mtime))
  ∧ (∀ l : List AppFile, (sortCmp (fileCmp "mtime" "desc") l).Pairwise
        (fun a b => b.mtime ≤ a.mtime))
  ∧ (∀ (o : String) (l : List AppFile) (k : String),
        (sortCmp (fileCmp "name" o) l).filter (fun f => normName f.name == k)
          = l.filter (fun f => normName f.name == k))
  ∧ (∀ (o : String) (l : List AppFile) (k : ℚ),
        (sortCmp (fileCmp "mtime" o) l).filter (fun f => f.mtime == k)
          = l.filter (fun f => f.mtime == k)) := by
  refine ⟨fun s => rfl, fun a b => ⟨?_, ?_⟩, fun sb a b => ?_,
    fun l => ?_, fun l => ?_, fun l => ?_, fun l => ?_,
    fun o l k => ?_, fun o l k => ?_⟩
  · rcases lt_trichotomy (normName a.name) (normName b.name) with h | h | h
    · simp [fileCmp, ne_of_lt h, h]
    · simp [fileCmp, h]
    · simp [fileCmp, h.ne', not_lt.2 h.le]
  · rcases lt_trichotomy a.mtime b.mtime with h | h | h
    · simp [fileCmp, ne_of_lt h, h]
    · simp [fileCmp, h]
    · simp [fileCmp, h.ne', not_lt.2 h.le]
  · by_cases hn : sb = "name"
    · subst hn
      rcases lt_trichotomy (normName a.name) (normName b.name) with h | h | h
      · simp [fileCmp, ne_of_lt h, h]
      · simp [fileCmp, h]
      · simp [fileCmp, h.ne', not_lt.2 h.le]
    · by_cases hm : sb = "mtime"
      · subst hm
        rcases lt_trichotomy a.mtime b.mtime with h | h | h
        · simp [fileCmp, ne_of_lt h, h]
        · simp [fileCmp, h]
        · simp [fileCmp, h.ne', not_lt.2 h.le]
      · simp [fileCmp, hn, hm]
  · exact (sortCmp_pairwise (fileCmp_total _ _) (fileCmp_trans _ _) l).imp
      (fun h => by simpa using (fileCmp_name_le_iff "asc" _ _).1 h)
  · exact (sortCmp_pairwise (fileCmp_total _ _) (fileCmp_trans _ _) l).imp
      (fun h => by simpa using (fileCmp_name_le_iff "desc" _ _).1 h)
  · exact (sortCmp_pairwise (fileCmp_total _ _) (fileCmp_trans _ _) l).imp
      (fun h => by simpa using (fileCmp_mtime_le_iff "asc" _ _).1 h)
  · exact (sortCmp_pairwise (fileCmp_total _ _) (fileCmp_trans _ _) l).imp
      (fun h => by simpa using (fileCmp_mtime_le_iff "desc" _ _).1 h)
  · refine sortCmp_filter_stable (fileCmp_total _ _) (fileCmp_trans _ _) ?_ l
    intro a b ha hb
    have ha' : normName a.name = k := by simpa using ha
    have hb' : normName b.name = k := by simpa using hb
    simp [fileCmp, ha', hb']
  · refine sortCmp_filter_stable (fileCmp_total _ _) (fileCmp_trans _ _) ?_ l
    intro a b ha hb
    have ha' : a.mtime = k := by simpa using ha
    have hb' : b.mtime = k := by simpa using hb
    simp [fileCmp, ha', hb']

/-! The selection-reconciliation claims. -/

theorem findIdx?_found (p : α → Bool) :
    ∀ l : List α, (∃ x ∈ l, p x) →
      ∃ i x, List.findIdx? p l = some i ∧ l[i]? = some x ∧ p x
  | [], h => by simp at h
  | a :: l, h => by
      by_cases hpa : p a
      · exact ⟨0, a, by simp [List.findIdx?_cons, hpa], by simp, hpa⟩
      · have hl : ∃ x ∈ l, p x := by
          rcases h with ⟨x, hx, hpx⟩
          rcases List.mem_cons.1 hx with hxa | hx
          · exact absurd (hxa ▸ hpx) hpa
          · exact ⟨x, hx, hpx⟩
        rcases findIdx?_found p l hl with ⟨i, x, hfind, hget, hpx⟩
        refine ⟨i + 1, x, ?_, by simpa using hget, hpx⟩
        rw [List.findIdx?_cons, if_neg (by simp [hpa]), List.findIdx?_succ, hfind]
        rfl

/-- C1: when the listing fetch fails (network error or malformed body), the
catch block has logged the error and left data undefined, and the statement
after the try block throws a TypeError reading data.canonical_path.  At the
moment of that throw no field of the state has been assigned, so the
escaping error carries the state unchanged — but an exception does escape
the operation, contradicting the no-uncaught-throw part of the claim. -/
theorem fetchList_network_failure (s : AppState) (fb : Bool) :
    fetchList s none fb = Except.error ("TypeError: data is undefined", s) :=
  rfl

/-- C3: on a successful refresh whose file list does not contain the
previous selection, the cursor is reset to 0 and the selection to the first
entry of the freshly sorted list; on a refresh whose file list is empty the
selection becomes null; both paths return normally. -/
theorem fetchList_reconcile (s : AppState) (data : ResponseList) (fb : Bool) :
    (data.files ≠ [] → (∀ f ∈ data.files, some f.path ≠ s.currentFile) →
      ∃ s1 r f0, fetchList s (some data) fb = Except.ok (s1, r) ∧
        s1.fileIndex = 0 ∧ s1.files[0]? = some f0 ∧ s1.currentFile = some f0.path)
  ∧ (data.files = [] →
      ∃ s1 r, fetchList s (some data) fb = Except.ok (s1, r) ∧
        s1.currentFile = none) := by
  constructor
  · intro hne hnomem
    have hperm := sortCmp_perm (fileCmp s.sortBy s.sortOrder) data.files
    have hlen : 0 < (sortCmp (fileCmp s.sortBy s.sortOrder) data.files).length := by
      rw [hperm.length_eq]
      exact List.length_pos.2 hne
    have hfind : List.findIdx? (fun f => some f.path == s.currentFile)
        (sortCmp (fileCmp s.sortBy s.sortOrder) data.files) = none := by
      rw [List.findIdx?_eq_none_iff]
      intro f hf
      have : f ∈ data.files := hperm.mem_iff.1 hf
      simpa using hnomem f this
    rcases List.exists_cons_of_ne_nil (List.length_pos.1 hlen) with ⟨f0, rest, hcons⟩
    refine ⟨{ resort { s with
                        currentPath := some data.canonical_path,
                        folders := data.folders,
                        files := data.files,
                        folderHash := some data.hash.hash } with
                fileIndex := 0,
                currentFile := ((sortCmp (fileCmp s.sortBy s.sortOrder) data.files)[0]?).map
                  AppFile.path },
            (s.currentPath != some data.canonical_path) || fb, f0, ?_, rfl, ?_, ?_⟩
    · simp only [fetchList, resort]
      rw [if_pos hlen, hfind]
    · show (sortCmp (fileCmp s.sortBy s.sortOrder) data.files)[0]? = some f0
      rw [hcons, List.getElem?_cons_zero]
    · show ((sortCmp (fileCmp s.sortBy s.sortOrder) data.files)[0]?).map AppFile.path
        = some f0.path
      rw [hcons, List.getElem?_cons_zero]
      rfl
  · intro hnil
    rcases data with ⟨cp, fo, fi, ha⟩
    simp only at hnil
    subst hnil
    exact ⟨_, _, rfl, rfl⟩

/-- C4: a re-sort (changeSort/_resort) never changes currentFile, and a
successful refresh whose new listing still contains the selected path keeps
currentFile and points fileIndex at that entry in the newly ordered list. -/
theorem selection_survives_reorder (s : AppState) :
    ((∃ f ∈ s.files, some f.path = s.currentFile) →
      (resort s).currentFile = s.currentFile ∧
      ∃ f, (resort s).files[(resort s).fileIndex]? = some f ∧
        some f.path = s.currentFile)
  ∧ (∀ b o : String, (changeSort s b o).currentFile = s.currentFile)
  ∧ (∀ (data : ResponseList) (fb : Bool),
      (∃ f ∈ data.files, some f.path = s.currentFile) →
      ∃ s1 r, fetchList s (some data) fb = Except.ok (s1, r) ∧
        s1.currentFile = s.currentFile ∧
        ∃ f, s1.files[s1.fileIndex]? = some f ∧ some f.path = s.currentFile) := by
  refine ⟨?_, ?_, ?_⟩
  · rintro ⟨f, hf, hpf⟩
    refine ⟨rfl, ?_⟩
    have hex : ∃ g ∈ sortCmp (fileCmp s.sortBy s.sortOrder) s.files,
        (fun g => some g.path == s.currentFile) g :=
      ⟨f, (sortCmp_perm _ _).mem_iff.2 hf, by simp [hpf]⟩
    obtain ⟨i, g, hfind, hget, hpg⟩ := findIdx?_found _ _ hex
    refine ⟨g, ?_, by simpa using hpg⟩
    simp only [resort]
    rw [hfind]
    exact hget
  · intro b o
    unfold changeSort
    split
    · rfl
    · rfl
  · rintro data fb ⟨f, hf, hpf⟩
    have hperm := sortCmp_perm (fileCmp s.sortBy s.sortOrder) data.files
    have hex : ∃ g ∈ sortCmp (fileCmp s.sortBy s.sortOrder) data.files,
        (fun g => some g.path == s.currentFile) g :=
      ⟨f, hperm.mem_iff.2 hf, by simp [hpf]⟩
    obtain ⟨i, g, hfind, hget, hpg⟩ := findIdx?_found _ _ hex
    have hlen : 0 < (sortCmp (fileCmp s.sortBy s.sortOrder) data.files).length := by
      rw [hperm.length_eq]
      exact List.length_pos.2 (List.ne_nil_of_mem hf)
    refine ⟨{ resort { s with
                        currentPath := some data.canonical_path,
                        folders := data.folders,
                        files := data.files,
                        folderHash := some data.hash.hash } with
                fileIndex := i },
            (s.currentPath != some data.canonical_path) || fb, ?_, rfl, g, ?_,
            by simpa using hpg⟩
    · simp only [fetchList, resort]
      rw [if_pos hlen, hfind]
    · exact hget

/-- C10: navigation clamps at the ends of the listing and never wraps: at
the last index nextFile is the identity, at index 0 prevFile is the
identity, and on an empty listing both are identities.  The clamped cases
assume the cursor invariant currentFile = files[fileIndex].path that every
writer of the pair establishes. -/
theorem navigation_clamps (s : AppState) :
    (s.files = [] → nextFile s = s ∧ prevFile s = s)
  ∧ (s.files ≠ [] → s.fileIndex = s.files.length - 1 →
      s.currentFile = (s.files[s.fileIndex]?).map AppFile.path → nextFile s = s)
  ∧ (s.fileIndex = 0 → s.currentFile = (s.files[0]?).map AppFile.path →
      prevFile s = s) := by
  refine ⟨?_, ?_, ?_⟩
  · intro hnil
    constructor <;> simp [nextFile, prevFile, hnil]
  · intro hne hidx hcf
    have hlen0 : s.files.length ≠ 0 := fun h => hne (List.length_eq_zero.1 h)
    have hmin : min (s.files.length - 1) (s.fileIndex + 1) = s.fileIndex := by omega
    have h1 : nextFile s = { s with
                              fileIndex := s.fileIndex,
                              currentFile := (s.files[s.fileIndex]?).map AppFile.path } := by
      simp only [nextFile, if_neg hlen0, hmin]
    rw [h1, ← hcf]
  · intro hidx0 hcf
    by_cases hnil : s.files.length = 0
    · simp [prevFile, hnil]
    · have h1 : prevFile s = { s with
                                fileIndex := s.fileIndex - 1,
                                currentFile := (s.files[s.fileIndex - 1]?).map AppFile.path } := by
        simp only [prevFile, if_neg hnil]
      rw [h1, hidx0]
      simp only [Nat.zero_sub]
      rw [← hcf, ← hidx0]

/-! Pan geometry and video volume. -/

/-- C8: setObjectPosition clamps both coordinates to [0,100] and then pins
the non-pannable axis to 50: x is pinned when the direction is 'up', which
holds exactly when the media aspect ratio is strictly below the viewport
aspect ratio, otherwise y is pinned; in particular with media 16:9 in a 4:3
viewport the direction is 'down' and input (130, -10) yields (100, 50). -/
theorem pan_clamp_pin :
    (∀ w h cw ch x y : ℚ,
        (w / h < cw / ch →
          direction w h cw ch = "up" ∧
          setObjectPosition w h cw ch x y = (50, max 0 (min 100 y)))
      ∧ (¬ w / h < cw / ch →
          direction w h cw ch = "down" ∧
          setObjectPosition w h cw ch x y = (max 0 (min 100 x), 50)))
  ∧ direction 16 9 4 3 = "down"
  ∧ setObjectPosition 16 9 4 3 130 (-10) = (100, 50) := by
  refine ⟨fun w h cw ch x y => ⟨fun hlt => ?_, fun hge => ?_⟩, ?_, ?_⟩
  · constructor
    · simp [direction, hlt]
    · simp [setObjectPosition, direction, hlt]
  · constructor
    · simp [direction, hge]
    · simp [setObjectPosition, direction, hge]
  · norm_num [direction]
  · norm_num [setObjectPosition, direction]
    decide

/-- C9 counterexample: the persisted volume 0 lies in [0,1], but _getVideo
assigns this.state.volume || 1.0, and 0 is falsy, so the created video
element receives volume 1, not the persisted 0. -/
theorem volume_zero_not_restored :
    (0:ℚ) ≤ 0 ∧ (0:ℚ) ≤ 1 ∧
    (getVideo { defaultState with volume := 0 } "v.mp4").volume = 1 ∧
    (getVideo { defaultState with volume := 0 } "v.mp4").volume ≠ 0 := by
  refine ⟨le_refl 0, by norm_num, ?_, ?_⟩ <;> norm_num [getVideo]

/-- C9 (amended): for every persisted volume in [0,1] other than the falsy
value 0, a newly created video element receives exactly that volume; at
volume 0 the or-default applies 1.0 instead. -/
theorem volume_restored (s : AppState) (file : String) :
    (0 ≤ s.volume → s.volume ≤ 1 → s.volume ≠ 0 →
      (getVideo s file).volume = s.volume)
  ∧ (s.volume = 0 → (getVideo s file).volume = 1) := by
  constructor
  · intro _ _ hne
    simp [getVideo, hne]
  · intro h0
    simp [getVideo, h0]

/-- Witness for volume_restored at volume 1/2. -/
theorem volume_restored_witness :
    (getVideo { defaultState with volume := 1/2 } "v.mp4").volume = 1/2 :=
  (volume_restored { defaultState with volume := 1/2 } "v.mp4").1
    (by norm_num) (by norm_num) (by norm_num)

/-- Witness for pan_clamp_pin: a 9:16 media in a 4:3 viewport pans on the
vertical axis (direction 'up'), and a 16:9 media in the same viewport on
the horizontal axis. -/
theorem pan_clamp_pin_witness :
    (direction 9 16 4 3 = "up" ∧ setObjectPosition 9 16 4 3 70 130 = (50, 100))
  ∧ (direction 16 9 4 3 = "down" ∧ setObjectPosition 16 9 4 3 130 (-10) = (100, 50)) := by
  constructor
  · have h := (pan_clamp_pin.1 9 16 4 3 70 130).1 (by norm_num)
    refine ⟨h.1, ?_⟩
    rw [h.2]
    norm_num
  · have h := (pan_clamp_pin.1 16 9 4 3 130 (-10)).2 (by norm_num)
    refine ⟨h.1, ?_⟩
    rw [h.2]
    norm_num

/-! The media cache: reuse semantics and the capacity/eviction behaviour. -/

theorem touch_key (f : String) (t : Nat) (e : CacheEntry) : (touch f t e).key = e.key := by
  unfold touch
  split <;> rfl

theorem regif_key (f : String) (t : Nat) (e : CacheEntry) : (regif f t e).key = e.key := by
  unfold regif
  split <;> rfl

theorem touch_imgId (f : String) (t : Nat) (e : CacheEntry) :
    (touch f t e).imgId = e.imgId := by
  unfold touch
  split <;> rfl

theorem regif_imgId (f : String) (t : Nat) (e : CacheEntry) :
    (regif f t e).imgId = e.imgId := by
  unfold regif
  split <;> rfl

theorem find?_map_keyeq (g : CacheEntry → CacheEntry) (hg : ∀ e, (g e).key = e.key)
    (f : String) : ∀ l : List CacheEntry,
      (l.map g).find? (fun e => e.key == f) = (l.find? (fun e => e.key == f)).map g
  | [] => rfl
  | e :: l => by
      rcases hkey : (e.key == f) with _ | _
      · simp only [List.map_cons, List.find?_cons, hg e, hkey]
        exact find?_map_keyeq g hg f l
      · simp only [List.map_cons, List.find?_cons, hg e, hkey]
        rfl

theorem find?_append_none {p : α → Bool} {l1 : List α} (l2 : List α)
    (h : l1.find? p = none) : (l1 ++ l2).find? p = l2.find? p := by
  induction l1 with
  | nil => rfl
  | cons a l ih =>
      rw [List.cons_append]
      by_cases hpa : p a = true
      · rw [List.find?_cons_of_pos _ hpa] at h
        exact absurd h (by simp)
      · rw [List.find?_cons_of_neg _ hpa] at h
        rw [List.find?_cons_of_neg _ hpa]
        exact ih h

theorem any_iff_isSome_find? {p : α → Bool} {l : List α} :
    l.any p = true ↔ (l.find? p).isSome = true := by
  rw [List.any_eq_true, List.find?_isSome]

theorem isSome_getD_eq {o : Option α} (h : o.isSome = true) (d : α) :
    o = some (o.getD d) := by
  cases o
  · simp at h
  · rfl

/-- After any resolution the cache holds an entry for the path, and the
returned handle is exactly the entry the cache now holds. -/
theorem getImage_find_self (c : ImgCache) (f : String) (t : Nat) :
    (getImage c f t).1.entries.find? (fun e => e.key == f)
      = some (getImage c f t).2 := by
  have hmem : ∃ x ∈ (getImage c f t).1.entries, (x.key == f) = true := by
    unfold getImage
    by_cases hany : c.entries.any (fun e => e.key == f) = true
    · rcases List.any_eq_true.1 hany with ⟨e, he, hef⟩
      by_cases hgif : strEndsWith f ".gif" = true
      · refine ⟨regif f t (touch f t e), ?_, ?_⟩
        · simp [hany, hgif]
          exact ⟨e, he, rfl⟩
        · rw [regif_key, touch_key]
          exact hef
      · refine ⟨touch f t e, ?_, ?_⟩
        · simp [hany, hgif]
          exact ⟨e, he, rfl⟩
        · rw [touch_key]
          exact hef
    · by_cases hgif : strEndsWith f ".gif" = true
      · refine ⟨regif f t (newEntry c.nextId f t), ?_, ?_⟩
        · simp [hany, hgif]
        · rw [regif_key]
          simp [newEntry]
      · refine ⟨newEntry c.nextId f t, ?_, ?_⟩
        · simp [hany, hgif]
        · simp [newEntry]
  have hsome : ((getImage c f t).1.entries.find? (fun e => e.key == f)).isSome = true :=
    List.find?_isSome.2 hmem
  have h2 : (getImage c f t).2
      = ((getImage c f t).1.entries.find? (fun e => e.key == f)).getD default := rfl
  rw [h2]
  exact isSome_getD_eq hsome default

/-- Resolving a cached non-animated path: the cache keeps every entry
(only the timestamp of the hit entry is rewritten) and the returned handle
is the cached entry with its fresh timestamp. -/
theorem getImage_hit_eq {c : ImgCache} {f : String} {e0 : CacheEntry} (t : Nat)
    (hfind : c.entries.find? (fun e => e.key == f) = some e0)
    (hgif : ¬ strEndsWith f ".gif" = true) :
    getImage c f t = ({ c with entries := c.entries.map (touch f t) },
                      { e0 with ts := (t : ℚ) / 1000 }) := by
  have hany : c.entries.any (fun e => e.key == f) = true :=
    any_iff_isSome_find?.2 (by rw [hfind]; rfl)
  have hkey : e0.key = f := by simpa using List.find?_some hfind
  simp only [getImage]
  rw [if_pos hany, if_neg hgif, find?_map_keyeq (touch f t) (touch_key f t), hfind]
  simp [touch, hkey]

/-- C7: resolving the same non-animated path twice without an intervening
eviction returns the identical handle (same image object, same bound URL)
and only rewrites its lastAccessTime, while resolving a path ending in .gif
always rebinds the handle's URL with the cache-busting token of the current
instant — also on reuse, where the image object itself is still the cached
one. -/
theorem image_reuse_spec :
    (∀ (c : ImgCache) (f : String) (t1 t2 : Nat), ¬ strEndsWith f ".gif" = true →
      (getImage (getImage c f t1).1 f t2).2.imgId = (getImage c f t1).2.imgId
      ∧ (getImage (getImage c f t1).1 f t2).2.src = (getImage c f t1).2.src
      ∧ (getImage (getImage c f t1).1 f t2).2.ts = (t2 : ℚ) / 1000
      ∧ (getImage (getImage c f t1).1 f t2).1.entries
          = (getImage c f t1).1.entries.map (touch f t2)
      ∧ (getImage (getImage c f t1).1 f t2).1.nextId = (getImage c f t1).1.nextId)
  ∧ (∀ (c : ImgCache) (f : String) (t : Nat), strEndsWith f ".gif" = true →
      (getImage c f t).2.src = fileUrlTok f t
      ∧ ∀ e0, c.entries.find? (fun e => e.key == f) = some e0 →
          (getImage c f t).2.imgId = e0.imgId) := by
  constructor
  · intro c f t1 t2 hgif
    have h1 := getImage_find_self c f t1
    have h2 := getImage_hit_eq t2 h1 hgif
    rw [h2]
    refine ⟨rfl, rfl, rfl, rfl, rfl⟩
  · intro c f t hgif
    constructor
    · have hself := getImage_find_self c f t
      have hsrc : ∀ x ∈ (getImage c f t).1.entries, (x.key == f) = true →
          x.src = fileUrlTok f t := by
        intro x hx hxk
        simp only [getImage] at hx
        by_cases hany : c.entries.any (fun e => e.key == f) = true
        · rw [if_pos hany, if_pos hgif] at hx
          have hx' : x ∈ (c.entries.map (touch f t)).map (regif f t) := hx
          rcases List.mem_map.1 hx' with ⟨y, hy, hyx⟩
          rw [← hyx]
          rw [← hyx, regif_key] at hxk
          unfold regif
          rw [if_pos (by simpa using hxk)]
        · rw [if_neg hany, if_pos hgif] at hx
          have hx' : x ∈ (c.entries ++ [newEntry c.nextId f t]).map (regif f t) := hx
          rcases List.mem_map.1 hx' with ⟨y, hy, hyx⟩
          rw [← hyx]
          rw [← hyx, regif_key] at hxk
          unfold regif
          rw [if_pos (by simpa using hxk)]
      have hk := List.find?_some hself
      exact hsrc _ (List.mem_of_find?_eq_some hself) (by simpa using hk)
    · intro e0 hfind
      have hany : c.entries.any (fun e => e.key == f) = true :=
        any_iff_isSome_find?.2 (by rw [hfind]; rfl)
      have heq : getImage c f t
          = ({ c with entries := (c.entries.map (touch f t)).map (regif f t) },
             ((((c.entries.map (touch f t)).map (regif f t)).find?
                (fun e => e.key == f)).getD default)) := by
        simp only [getImage]
        rw [if_pos hany, if_pos hgif]
      rw [heq]
      rw [find?_map_keyeq (regif f t) (regif_key f t),
        find?_map_keyeq (touch f t) (touch_key f t), hfind]
      show (regif f t (touch f t e0)).imgId = e0.imgId
      rw [regif_imgId, touch_imgId]

/-- The reduce of _cleanupCache computes the entry with the minimal
timestamp; on ties it keeps the later operand, so the selected entry is the
last-encountered one among the minima: every entry before it is no smaller,
every entry after it strictly larger. -/
theorem foldl_oldest :
    ∀ (l : List CacheEntry) (a : CacheEntry),
      (l.foldl (fun x y => if x.ts < y.ts then x else y) a = a ∧ ∀ y ∈ l, a.ts < y.ts)
      ∨ (∃ u x v, l = u ++ x :: v
          ∧ l.foldl (fun x y => if x.ts < y.ts then x else y) a = x
          ∧ x.ts ≤ a.ts ∧ (∀ y ∈ u, x.ts ≤ y.ts) ∧ (∀ y ∈ v, x.ts < y.ts))
  | [], a => Or.inl ⟨rfl, by simp⟩
  | b :: l, a => by
      rw [List.foldl_cons]
      by_cases hab : a.ts < b.ts
      · rw [if_pos hab]
        rcases foldl_oldest l a with ⟨heq, hall⟩ | ⟨u, x, v, hsplit, heq, hxa, hu, hv⟩
        · refine Or.inl ⟨heq, ?_⟩
          intro y hy
          rcases List.mem_cons.1 hy with hyb | hy
          · rw [hyb]; exact hab
          · exact hall y hy
        · refine Or.inr ⟨b :: u, x, v, by simp [hsplit], heq, hxa, ?_, hv⟩
          intro y hy
          rcases List.mem_cons.1 hy with hyb | hy
          · rw [hyb]; exact le_of_lt (lt_of_le_of_lt hxa hab)
          · exact hu y hy
      · rw [if_neg hab]
        have hba : b.ts ≤ a.ts := le_of_not_lt hab
        rcases foldl_oldest l b with ⟨heq, hall⟩ | ⟨u, x, v, hsplit, heq, hxb, hu, hv⟩
        · exact Or.inr ⟨[], b, l, rfl, heq, hba, by simp, hall⟩
        · refine Or.inr ⟨b :: u, x, v, by simp [hsplit], heq, le_trans hxb hba, ?_, hv⟩
          intro y hy
          rcases List.mem_cons.1 hy with hyb | hy
          · rw [hyb]; exact hxb
          · exact hu y hy

theorem reduceOldest_spec {l : List CacheEntry} {old : CacheEntry}
    (h : reduceOldest l = some old) :
    ∃ u v, l = u ++ old :: v ∧ (∀ y ∈ u, old.ts ≤ y.ts) ∧ (∀ y ∈ v, old.ts < y.ts) := by
  cases l with
  | nil => cases h
  | cons e es =>
      have hold : es.foldl (fun x y => if x.ts < y.ts then x else y) e = old := by
        simpa [reduceOldest] using h
      rcases foldl_oldest es e with ⟨heq, hall⟩ | ⟨u, x, v, hsplit, heq, hxa, hu, hv⟩
      · obtain rfl : old = e := by rw [← hold, heq]
        exact ⟨[], es, rfl, by simp, hall⟩
      · obtain rfl : old = x := by rw [← hold, heq]
        refine ⟨e :: u, v, by simp [hsplit], ?_, hv⟩
        intro y hy
        rcases List.mem_cons.1 hy with hyb | hy
        · rw [hyb]; exact hxa
        · exact hu y hy

theorem getImage_length (c : ImgCache) (f : String) (t : Nat) :
    (getImage c f t).1.entries.length ≤ c.entries.length + 1 := by
  simp only [getImage]
  by_cases hany : c.entries.any (fun e => e.key == f) = true <;>
    by_cases hgif : strEndsWith f ".gif" = true <;>
      simp [hany, hgif]

theorem length_filter_lt {l : List CacheEntry} {e : CacheEntry} (he : e ∈ l) :
    (l.filter (fun x => x.key != e.key)).length < l.length := by
  induction l with
  | nil => cases he
  | cons a l ih =>
      rw [List.filter_cons]
      by_cases ha : (a.key != e.key) = true
      · rcases List.mem_cons.1 he with hea | hel
        · rw [hea] at ha
          simp at ha
        · rw [if_pos ha]
          simpa using Nat.succ_lt_succ (ih hel)
      · rw [if_neg ha]
        simpa using Nat.lt_succ_of_le (List.length_filter_le _ l)

theorem cleanup_length {c : ImgCache} (h : c.entries.length ≤ MAX_CACHED_IMAGES + 1) :
    (cleanupCache c).entries.length ≤ MAX_CACHED_IMAGES := by
  unfold cleanupCache
  by_cases hgt : c.entries.length > MAX_CACHED_IMAGES
  · rw [if_pos hgt]
    cases hro : reduceOldest c.entries with
    | none =>
        exfalso
        cases hE : c.entries with
        | nil => rw [hE] at hgt; simp [MAX_CACHED_IMAGES] at hgt
        | cons e es => rw [hE] at hro; simp [reduceOldest] at hro
    | some old =>
        obtain ⟨u, v, hsplit, _, _⟩ := reduceOldest_spec hro
        have hmem : old ∈ c.entries := by
          rw [hsplit]
          exact List.mem_append_right _ (List.mem_cons_self _ _)
        have hlt := length_filter_lt hmem
        show (c.entries.filter (fun e => e.key != old.key)).length ≤ MAX_CACHED_IMAGES
        omega
  · rw [if_neg hgt]
    omega

theorem runResolveCleanup_bound :
    ∀ (ops : List (String × Nat)) (c : ImgCache),
      c.entries.length ≤ MAX_CACHED_IMAGES →
      (runResolveCleanup c ops).entries.length ≤ MAX_CACHED_IMAGES
  | [], _, h => h
  | op :: ops, c, h => by
      have h1 := getImage_length c op.1 op.2
      have h2 : (getImage c op.1 op.2).1.entries.length ≤ MAX_CACHED_IMAGES + 1 := by
        omega
      exact runResolveCleanup_bound ops _ (cleanup_length h2)

set_option maxRecDepth 40000 in
/-- C2 counterexample: resolving 51 distinct non-video paths with no
intervening eviction — exactly what _preloadNextAndPrevious does, since only
the directly displayed image is followed by a _cleanupCache call — is a
sequence of resolutions and evictions after which the cache holds 51
entries, exceeding the claimed capacity 50. -/
theorem cache_bound_counterexample :
    (runResolves emptyCache ((List.range 51).map (fun i => (natStr i, i)))).entries.length
      = 51
    ∧ ¬ (runResolves emptyCache
          ((List.range 51).map (fun i => (natStr i, i)))).entries.length
        ≤ MAX_CACHED_IMAGES := by
  constructor
  · decide
  · decide

/-- C2 (amended): the capacity bound holds for sequences in which every
resolution is immediately followed by a cleanup (the _renderImage path for
the displayed image), and each eviction from an over-capacity cache with
pairwise-distinct keys removes exactly one entry, namely one whose
lastAccessTime is minimal — with ties broken by the LAST-encountered key,
because the reduce keeps its second operand on ties. -/
theorem cache_bound_amended :
    (∀ (c : ImgCache) (ops : List (String × Nat)),
        c.entries.length ≤ MAX_CACHED_IMAGES →
        (runResolveCleanup c ops).entries.length ≤ MAX_CACHED_IMAGES)
  ∧ (∀ c : ImgCache, MAX_CACHED_IMAGES < c.entries.length →
      (c.entries.map (fun e => e.key)).Nodup →
      ∃ old u v, c.entries = u ++ old :: v
        ∧ (∀ y ∈ u, old.ts ≤ y.ts) ∧ (∀ y ∈ v, old.ts < y.ts)
        ∧ (cleanupCache c).entries = u ++ v) := by
  constructor
  · intro c ops h
    exact runResolveCleanup_bound ops c h
  · intro c hlen hnodup
    have hne : c.entries ≠ [] := by
      intro h
      rw [h] at hlen
      simp [MAX_CACHED_IMAGES] at hlen
    obtain ⟨old, hro⟩ : ∃ old, reduceOldest c.entries = some old := by
      cases hE : c.entries with
      | nil => exact absurd hE hne
      | cons e es => exact ⟨_, rfl⟩
    obtain ⟨u, v, hsplit, hu, hv⟩ := reduceOldest_spec hro
    refine ⟨old, u, v, hsplit, hu, hv, ?_⟩
    unfold cleanupCache
    rw [if_pos hlen, hro]
    show c.entries.filter (fun e => e.key != old.key) = u ++ v
    have hnodup2 : ((u ++ old :: v).map (fun e => e.key)).Nodup := by
      rw [← hsplit]
      exact hnodup
    rw [List.map_append, List.map_cons] at hnodup2
    have hnotmem : old.key ∉ u.map (fun e => e.key) ++ v.map (fun e => e.key) :=
      (List.nodup_cons.1 (List.nodup_middle.1 hnodup2)).1
    have hufilter : u.filter (fun e => e.key != old.key) = u := by
      rw [List.filter_eq_self]
      intro e he
      rw [bne_iff_ne]
      intro hk
      exact hnotmem (List.mem_append_left _ (hk ▸ List.mem_map_of_mem _ he))
    have hvfilter : v.filter (fun e => e.key != old.key) = v := by
      rw [List.filter_eq_self]
      intro e he
      rw [bne_iff_ne]
      intro hk
      exact hnotmem (List.mem_append_right _ (hk ▸ List.mem_map_of_mem _ he))
    rw [hsplit, List.filter_append, List.filter_cons]
    simp [hufilter, hvfilter]

/-- Witness for fetchList_reconcile: a refresh that drops the previous
selection reselects index 0, and a refresh with an empty listing nulls the
selection; both return normally. -/
theorem fetchList_reconcile_witness :
    (∃ s1 r f0,
        fetchList { defaultState with currentFile := some "z" }
          (some ⟨"/p", [], [⟨"a", "pa", false, 1⟩], ⟨"h"⟩⟩) false = Except.ok (s1, r)
        ∧ s1.fileIndex = 0 ∧ s1.files[0]? = some f0 ∧ s1.currentFile = some f0.path)
  ∧ (∃ s1 r,
        fetchList { defaultState with currentFile := some "z" }
          (some ⟨"/p", [], [], ⟨"h"⟩⟩) false = Except.ok (s1, r)
        ∧ s1.currentFile = none) :=
  ⟨(fetchList_reconcile { defaultState with currentFile := some "z" }
      ⟨"/p", [], [⟨"a", "pa", false, 1⟩], ⟨"h"⟩⟩ false).1 (by decide) (by decide),
   (fetchList_reconcile { defaultState with currentFile := some "z" }
      ⟨"/p", [], [], ⟨"h"⟩⟩ false).2 rfl⟩

/-- Witness for selection_survives_reorder: with the selected path present,
a resort keeps the selection, and a refresh containing the selected path
keeps it and repoints the cursor. -/
theorem selection_survives_reorder_witness :
    (resort { defaultState with
               files := [⟨"b", "pb", false, 2⟩, ⟨"a", "pa", false, 1⟩],
               currentFile := some "pa" }).currentFile = some "pa"
  ∧ (∃ s1 r,
      fetchList { defaultState with
                   files := [⟨"b", "pb", false, 2⟩, ⟨"a", "pa", false, 1⟩],
                   currentFile := some "pa" }
        (some ⟨"/p", [], [⟨"a", "pa", false, 1⟩], ⟨"h"⟩⟩) false = Except.ok (s1, r)
      ∧ s1.currentFile = some "pa"
      ∧ ∃ f, s1.files[s1.fileIndex]? = some f ∧ some f.path = some "pa") :=
  ⟨((selection_survives_reorder { defaultState with
        files := [⟨"b", "pb", false, 2⟩, ⟨"a", "pa", false, 1⟩],
        currentFile := some "pa" }).1 (by decide)).1,
   (selection_survives_reorder { defaultState with
        files := [⟨"b", "pb", false, 2⟩, ⟨"a", "pa", false, 1⟩],
        currentFile := some "pa" }).2.2
      ⟨"/p", [], [⟨"a", "pa", false, 1⟩], ⟨"h"⟩⟩ false (by decide)⟩

/-- Witness for navigation_clamps: both actions are identities on an empty
listing, and on a one-element listing with the cursor on it. -/
theorem navigation_clamps_witness :
    (nextFile defaultState = defaultState ∧ prevFile defaultState = defaultState)
  ∧ nextFile { defaultState with
                files := [⟨"a", "pa", false, 1⟩],
                currentFile := some "pa" }
      = { defaultState with
           files := [⟨"a", "pa", false, 1⟩],
           currentFile := some "pa" }
  ∧ prevFile { defaultState with
                files := [⟨"a", "pa", false, 1⟩],
                currentFile := some "pa" }
      = { defaultState with
           files := [⟨"a", "pa", false, 1⟩],
           currentFile := some "pa" } :=
  ⟨(navigation_clamps defaultState).1 rfl,
   (navigation_clamps { defaultState with
        files := [⟨"a", "pa", false, 1⟩],
        currentFile := some "pa" }).2.1 (by decide) rfl (by decide),
   (navigation_clamps { defaultState with
        files := [⟨"a", "pa", false, 1⟩],
        currentFile := some "pa" }).2.2 rfl (by decide)⟩

/-- Witness for image_reuse_spec: the handle of a.png is reused across two
resolutions, and b.gif always gets the freshly tokenised URL while reusing
the cached image object. -/
theorem image_reuse_spec_witness :
    (getImage (getImage emptyCache "a.png" 1000).1 "a.png" 2000).2.imgId
      = (getImage emptyCache "a.png" 1000).2.imgId
  ∧ (getImage emptyCache "b.gif" 5).2.src = fileUrlTok "b.gif" 5
  ∧ (getImage (getImage emptyCache "b.gif" 5).1 "b.gif" 7).2.imgId
      = (getImage emptyCache "b.gif" 5).2.imgId :=
  ⟨(image_reuse_spec.1 emptyCache "a.png" 1000 2000 (by decide)).1,
   (image_reuse_spec.2 emptyCache "b.gif" 5 (by decide)).1,
   (image_reuse_spec.2 (getImage emptyCache "b.gif" 5).1 "b.gif" 7 (by decide)).2
     (getImage emptyCache "b.gif" 5).2 (getImage_find_self emptyCache "b.gif" 5)⟩

set_option maxRecDepth 40000 in
/-- Witness for cache_bound_amended: the bound invariant applied at a small
concrete run, and the eviction characterisation applied at a concrete
51-entry cache with distinct keys and increasing timestamps. -/
theorem cache_bound_amended_witness :
    (runResolveCleanup emptyCache [("a.png", 5)]).entries.length ≤ MAX_CACHED_IMAGES
  ∧ ∃ old u v,
      ({ entries := (List.range 51).map
            (fun i => { key := natStr i, imgId := i, src := "", ts := (i : ℚ) }),
         nextId := 51 } : ImgCache).entries = u ++ old :: v
      ∧ (∀ y ∈ u, old.ts ≤ y.ts) ∧ (∀ y ∈ v, old.ts < y.ts)
      ∧ (cleanupCache
          { entries := (List.range 51).map
              (fun i => { key := natStr i, imgId := i, src := "", ts := (i : ℚ) }),
            nextId := 51 }).entries = u ++ v :=
  ⟨cache_bound_amended.1 emptyCache [("a.png", 5)] (by decide),
   cache_bound_amended.2
     { entries := (List.range 51).map
          (fun i => { key := natStr i, imgId := i, src := "", ts := (i : ℚ) }),
       nextId := 51 } (by decide) (by decide)⟩

end ImgApp
